import Mathlib

/-!
Verification of the SciDB-py client (`scidbpy/db.py`) result-decoding path
and connection/expression objects, as a shallow embedding in Lean.

The embedding follows `DB.iquery` in `src/scidbpy/db.py`: the first pass
scans the downloaded byte buffer and records `(offset, size)` metadata per
attribute per record; the second pass extracts one typed value per recorded
pair.  The attribute-level primitives (`Attribute.itemsize`,
`Attribute.frombytes`, `Schema.make_dims_unique`, `Schema.make_dims_atts`)
live in `scidbpy/schema.py`, which is not part of the sources under
verification; those definitions are modelled from the specification and are
marked as such in their doc comments.

A byte buffer is a `List Nat` of byte values; machine integers are decoded
into `Int` with explicit two's-complement adjustment.
-/

/-- SciDB primitive type tags used by the embedding: two fixed-width types
(8-byte signed `int64`, 1-byte `uint8`) and the variable-width `string`. -/
inductive ScidbType where
  | int64
  | uint8
  | string

deriving instance DecidableEq, Repr for ScidbType

/-- Modelled from the spec: the field descriptor produced by the Schema
Resolver (`scidbpy/schema.py`, absent from the sources): a name, a primitive
type tag and a nullability flag.  `not_null` keeps the source's flag name
(`Attribute(name, type_name, not_null)`). -/
structure Attribute where
  name : String
  type_name : ScidbType
  not_null : Bool

deriving instance DecidableEq, Repr for Attribute

/-- Modelled from the spec: a dimension descriptor (coordinate field); only
the name is relevant to the decoding path. -/
structure Dimension where
  name : String

deriving instance DecidableEq, Repr for Dimension

/-- Modelled from the spec: a schema is the ordered attribute list and the
ordered dimension list (`Schema(atts, dims)` in `scidbpy/schema.py`). -/
structure Schema where
  atts : List Attribute
  dims : List Dimension

deriving instance DecidableEq, Repr for Schema

/-- A decoded scalar value.  `pair` is the raw nullable `(indicator, value)`
pair; `nan` and `floatOfInt` represent the floating-point column produced by
the Pandas null promotion (NaN sentinel, and an integer widened to float) —
kept symbolic, since no floating-point arithmetic is performed on them. -/
inductive Value where
  | i (v : Int)
  | u (v : Nat)
  | s (v : List Nat)
  | pair (ind : Nat) (v : Value)
  | nan
  | floatOfInt (v : Int)

deriving instance DecidableEq, Repr for Value

/-- Modelled from the spec: the decode-failure taxonomy of §7 of the spec
(`TruncatedBuffer`, `MalformedField`, `SchemaMismatch`). -/
inductive DecodeError where
  | TruncatedBuffer
  | MalformedField
  | SchemaMismatch

deriving instance DecidableEq, Repr for DecodeError

/-- Byte lookup in a buffer (out-of-range reads never occur on the
successful paths, which are guarded by explicit bounds checks). -/
def byteAt (buf : List Nat) (off : Nat) : Nat :=
  buf.getD off 0

/-- Little-endian read of `n` bytes starting at `off`. -/
def readLE (buf : List Nat) (off : Nat) : Nat → Nat
  | 0 => 0
  | n + 1 => byteAt buf off + 256 * readLE buf (off + 1) n

/-- Two's-complement interpretation of a 64-bit little-endian value. -/
def int64OfLE (n : Nat) : Int :=
  if n < 2 ^ 63 then (n : Int) else (n : Int) - 2 ^ 64

/-- `(buf.drop off).take n`: the `n` bytes starting at `off`. -/
def byteSlice (buf : List Nat) (off n : Nat) : List Nat :=
  (buf.drop off).take n

/-- The constant byte width of a fixed-width type tag; `none` for the
variable-width `string`. -/
def fixedWidth : ScidbType → Option Nat
  | .int64 => some 8
  | .uint8 => some 1
  | .string => none

/-- Modelled from the spec: `Attribute.itemsize(buf, off)` from
`scidbpy/schema.py` (absent from the sources) — the byte width of one value
of this attribute at offset `off`: a leading null-indicator byte when the
attribute is nullable, then either the type's fixed width or, for `string`,
a 4-byte little-endian length prefix followed by that many payload bytes. -/
def Attribute.itemsize (a : Attribute) (buf : List Nat) (off : Nat) : Nat :=
  let ind : Nat := if a.not_null then 0 else 1
  match fixedWidth a.type_name with
  | some w => ind + w
  | none => ind + 4 + readLE buf (off + ind) 4

/-- Decode the non-null payload of one value of type `t` occupying `sz`
bytes at `off` (for `string`, the payload follows its 4-byte length
prefix). -/
def decodeVal (t : ScidbType) (buf : List Nat) (off sz : Nat) : Value :=
  match t with
  | .int64 => .i (int64OfLE (readLE buf off 8))
  | .uint8 => .u (byteAt buf off)
  | .string => .s (byteSlice buf (off + 4) (sz - 4))

/-- The Pandas null promotion applied to a present value: integer values are
widened to floating point; other values keep their representation. -/
def promoteVal : Value → Value
  | .i v => .floatOfInt v
  | .u v => .floatOfInt v
  | v => v

/-- Modelled from the spec: `Attribute.frombytes(buf, off, size, promo)`
from `scidbpy/schema.py` (absent from the sources).  A value whose recorded
extent overruns the buffer is a fatal decode error (spec §4.1/§7:
`TruncatedBuffer` for a fixed-width field, `MalformedField` for a
variable-width one).  A nullable value is split into its null-indicator
byte and the remaining payload bytes; without promotion the raw
`(indicator, value)` pair is returned.  The null-indicator convention
follows the doctests of `db.py` (`(255, 0)` decodes to a present `0`, and
promotes to `0.0`, not to the sentinel): indicator `255` marks a present
value, any other indicator is a missing value, which promotion replaces by
the NaN sentinel. -/
def Attribute.frombytes (a : Attribute) (buf : List Nat) (off sz : Nat)
    (promo : Bool) : Except DecodeError Value :=
  if buf.length < off + sz then
    .error (if (fixedWidth a.type_name).isSome then .TruncatedBuffer
            else .MalformedField)
  else if a.not_null then
    .ok (decodeVal a.type_name buf off sz)
  else
    let ind := byteAt buf off
    let v := decodeVal a.type_name buf (off + 1) (sz - 1)
    if promo then .ok (if ind = 255 then promoteVal v else .nan)
    else .ok (.pair ind v)

/-- The inner `for att in sch.atts` loop of the first pass of `DB.iquery`
(`db.py:466-469`): measure each attribute at the running offset, record the
`(offset, size)` pair, and advance the offset.  Returns the per-record
metadata list together with the final offset. -/
def scanRecord (atts : List Attribute) (buf : List Nat) (off : Nat) :
    List (Nat × Nat) × Nat :=
  match atts with
  | [] => ([], off)
  | a :: rest =>
    let sz := a.itemsize buf off
    let r := scanRecord rest buf (off + sz)
    ((off, sz) :: r.1, r.2)

/-- The outer `while off < len(buf)` loop of the first pass of `DB.iquery`
(`db.py:462-470`), with an explicit fuel argument standing for the loop's
iteration count.  Each iteration with a nonempty attribute list advances
the offset by at least one byte, so `buf.length + 1` units of fuel are
always sufficient (`buf_meta_fuel_congr`); the source loop does not
terminate on an empty attribute list, which never arises since SciDB
schemas have at least one attribute. -/
def bufMetaF (fuel : Nat) (atts : List Attribute) (buf : List Nat)
    (off : Nat) : List (List (Nat × Nat)) :=
  match fuel with
  | 0 => []
  | fuel + 1 =>
    if off < buf.length then
      (scanRecord atts buf off).1 ::
        bufMetaF fuel atts buf (scanRecord atts buf off).2
    else []

/-- The first pass of `DB.iquery`: the `buf_meta` list of per-record
`(offset, size)` metadata. -/
def buf_meta (atts : List Attribute) (buf : List Nat) :
    List (List (Nat × Nat)) :=
  bufMetaF (buf.length + 1) atts buf 0

/-- Error-propagating map, as exception propagation out of the extraction
loops of `DB.iquery`: the first failing element aborts the whole decode. -/
def mapE (f : α → Except DecodeError β) : List α → Except DecodeError (List β)
  | [] => .ok []
  | x :: xs =>
    match f x with
    | .error e => .error e
    | .ok v =>
      match mapE f xs with
      | .error e => .error e
      | .ok vs => .ok (v :: vs)

/-- Combine two extraction results: append the value lists, propagating the
first failure. -/
def combineE (r₁ r₂ : Except DecodeError (List Value)) :
    Except DecodeError (List Value) :=
  match r₁ with
  | .error e => .error e
  | .ok v₁ =>
    match r₂ with
    | .error e => .error e
    | .ok v₂ => .ok (v₁ ++ v₂)

/-- The second pass of `DB.iquery` for one record (`db.py:482-489`): for
each `(att, (off, sz))` pair of `zip(sch.atts, meta)`, extract the typed
value from the buffer at the recorded offset and size. -/
def extractRecord (atts : List Attribute) (buf : List Nat) (promo : Bool)
    (meta : List (Nat × Nat)) : Except DecodeError (List Value) :=
  mapE (fun p => p.1.frombytes buf p.2.1 p.2.2 promo) (atts.zip meta)

/-- The full decode of `DB.iquery` (`db.py:461-490`): the first pass builds
the `(offset, size)` metadata, the second pass extracts each record's
values at the recorded pairs. -/
def decode (atts : List Attribute) (buf : List Nat) (promo : Bool) :
    Except DecodeError (List (List Value)) :=
  mapE (extractRecord atts buf promo) (buf_meta atts buf)

/-- Sum of the recorded sizes of a flat `(offset, size)` list. -/
def sizeSum (l : List (Nat × Nat)) : Nat :=
  (l.map Prod.snd).sum

/-- Total width recorded by the first pass across all records. -/
def widthSum (atts : List Attribute) (buf : List Nat) : Nat :=
  sizeSum (buf_meta atts buf).flatten

/-- Whether every attribute of the list has a fixed-width type. -/
def allFixed (atts : List Attribute) : Bool :=
  atts.all (fun a => (fixedWidth a.type_name).isSome)

/-- The constant per-value width of a fixed-width attribute (indicator byte
plus type width). -/
def fixedItem (a : Attribute) : Nat :=
  (if a.not_null then 0 else 1) + (fixedWidth a.type_name).getD 0

/-- The constant width of one whole record of fixed-width attributes. -/
def recordWidth (atts : List Attribute) : Nat :=
  (atts.map fixedItem).sum

/-- `(offset, size)` pairs chained consecutively from a starting offset:
each pair's offset is the running offset, which then advances by the
pair's size. -/
def chainedB : Nat → List (Nat × Nat) → Bool
  | _, [] => true
  | o, p :: rest => (p.1 == o) && chainedB (o + p.2) rest

/-- A list of offsets in non-decreasing order. -/
def nondecB : List Nat → Bool
  | [] => true
  | [_] => true
  | x :: y :: rest => (x ≤ y : Bool) && nondecB (y :: rest)

/-- The buffer indices covered by a flat `(offset, size)` list, in order. -/
def covered (l : List (Nat × Nat)) : List Nat :=
  l.flatMap (fun p => List.range' p.1 p.2)

/-- ASCII lower-casing of one character (the effect of Python's
`str.lower` on the ASCII operator names and URLs involved). -/
def charLower (c : Char) : Char :=
  if 65 ≤ c.toNat ∧ c.toNat ≤ 90 then Char.ofNat (c.toNat + 32) else c

/-- ASCII lower-casing of a string, as Python's `str.lower`. -/
def lowerStr (s : String) : String :=
  ⟨s.data.map charLower⟩

/-- Python's `str.startswith`. -/
def startsWithStr (s pre : String) : Bool :=
  s.data.take pre.data.length == pre.data

/-- Modelled from the spec: `Schema.make_dims_unique` from
`scidbpy/schema.py` (absent from the sources) — a dimension whose name
collides with an attribute name is renamed before decoding; the `db.py`
doctest shows the colliding dimension `i` renamed to `i_1`. -/
def Schema.make_dims_unique (sch : Schema) : Schema :=
  let attNames := sch.atts.map Attribute.name
  { sch with
    dims := sch.dims.map (fun d =>
      if d.name ∈ attNames then ⟨d.name ++ "_1"⟩ else d) }

/-- A dimension materialized as an attribute: an `int64` coordinate, never
null (the `db.py` doctests show dimension columns with plain dtype
`<i8`). -/
def dimToAtt (d : Dimension) : Attribute :=
  ⟨d.name, .int64, true⟩

/-- Modelled from the spec: `Schema.make_dims_atts` from
`scidbpy/schema.py` (absent from the sources) — after `DB.iquery` projects
`itertools.chain(sch.dims, sch.atts)` (`db.py:447-448`), the dimensions
become leading attributes of the schema used for decoding. -/
def Schema.make_dims_atts (sch : Schema) : Schema :=
  ⟨sch.dims.map dimToAtt ++ sch.atts, []⟩

/-- The attribute list `DB.iquery` decodes against (`db.py:438-450`): the
schema's attributes alone when `atts_only`, otherwise the renamed
dimensions followed by the attributes. -/
def fetchAtts (sch : Schema) (atts_only : Bool) : List Attribute :=
  if atts_only then sch.atts
  else sch.make_dims_unique.make_dims_atts.atts

/-- The keyword arguments of `DB.iquery` and their defaults
(`db.py:376-382`). -/
structure IqueryOpts where
  fetch : Bool := false
  atts_only : Bool := false
  as_dataframe : Bool := false
  dataframe_promo : Bool := true

/-- The fetch path of `DB.iquery`: decode the downloaded buffer against the
effective attribute list; null promotion applies exactly when both
`as_dataframe` and `dataframe_promo` are set (`db.py:488`). -/
def iquery_fetch (sch : Schema) (opts : IqueryOpts) (buf : List Nat) :
    Except DecodeError (List (List Value)) :=
  decode (fetchAtts sch opts.atts_only) buf
    (opts.as_dataframe && opts.dataframe_promo)

/-- The deferred SciDB expression object (`class SciDB`, `db.py:552-586`):
an operator name and an argument list. -/
structure SciDBExpr where
  operator : String
  args : List String

deriving instance DecidableEq, Repr for SciDBExpr

/-- `SciDB.is_lazy` (`db.py:559-560`): every operator except `create_array`
and `remove` is lazy. -/
def SciDBExpr.is_lazy (e : SciDBExpr) : Bool :=
  !(lowerStr e.operator == "create_array" || lowerStr e.operator == "remove")

/-- `SciDB.__str__` (`db.py:584-586`): render the operator call. -/
def SciDBExpr.str (e : SciDBExpr) : String :=
  e.operator ++ "(" ++ String.intercalate ", " e.args ++ ")"

/-- The result of `SciDB.__call__`: either the unevaluated expression
itself (no query executed) or the execution of the rendered query through
`db.iquery`. -/
inductive CallResult where
  | lazy (e : SciDBExpr)
  | executed (query : String)

deriving instance DecidableEq, Repr for CallResult

/-- `SciDB.__call__` (`db.py:562-575`): store the call's arguments, append
the default `temporary=False` for a short `create_array` call, then return
the expression unevaluated when lazy and execute it otherwise. -/
def SciDBExpr.call (e : SciDBExpr) (args : List String) : CallResult :=
  let args1 :=
    if startsWithStr (lowerStr e.operator) "create_array" ∧ args.length < 3
    then args ++ ["False"]
    else args
  let e1 : SciDBExpr := ⟨e.operator, args1⟩
  if e1.is_lazy then .lazy e1 else .executed e1.str

/-- The password placeholder stored in the public auth fields
(`Password_Placeholder`, `db.py:283-285`). -/
inductive PasswordDisplay where
  | password_provided

deriving instance DecidableEq, Repr for PasswordDisplay

/-- The connection fields of `DB` relevant to authentication: the URL, the
public `scidb_auth`/`http_auth` pairs (password replaced by the
placeholder) and the private `_scidb_auth` credentials. -/
structure DBConn where
  scidb_url : String
  scidb_auth : Option (String × PasswordDisplay)
  http_auth : Option (String × PasswordDisplay)
  scidb_auth_secret : Option (String × String)

deriving instance DecidableEq, Repr for DBConn

/-- The authentication logic of `DB.__init__` (`db.py:305-334`): SciDB
credentials with a URL that does not start with `https` (case-insensitive)
raise an exception; otherwise the public fields hold the user name with
the password replaced by the placeholder. -/
def db_init (scidb_url : String) (scidb_auth http_auth : Option (String × String)) :
    Except String DBConn :=
  let ha := http_auth.map (fun p => (p.1, PasswordDisplay.password_provided))
  match scidb_auth with
  | some (u, p) =>
    if startsWithStr (lowerStr scidb_url) "https" then
      .ok ⟨scidb_url, some (u, .password_provided), ha, some (u, p)⟩
    else
      .error "SciDB credentials can only be used with https connections"
  | none => .ok ⟨scidb_url, none, ha, none⟩

/-- The decode-relevant part of an attribute descriptor: its type tag and
nullability.  The decoder never reads the name. -/
def Attribute.shape (a : Attribute) : ScidbType × Bool :=
  (a.type_name, a.not_null)

/-- Concrete descriptors and buffers used by the witnesses below: a
non-null `int64` dimension-style field and a nullable `int64` attribute
(as in the `db.py` doctests). -/
def attI : Attribute := ⟨"i", .int64, true⟩

/-- A nullable `int64` attribute named `x`, as in the `db.py` doctests. -/
def attX : Attribute := ⟨"x", .int64, false⟩

/-- One nullable-`int64` cell: indicator `255` (present) and payload `1`. -/
def buf9 : List Nat := [255, 1, 0, 0, 0, 0, 0, 0, 0]

/-- One nullable-`int64` cell with indicator `0` (a missing value) and
payload bytes `1`. -/
def buf9null : List Nat := [0, 1, 0, 0, 0, 0, 0, 0, 0]

/-- Twelve zero bytes: one and a half non-null `int64` cells — a buffer
truncated midway through the second record's fixed-width field. -/
def buf12 : List Nat := List.replicate 12 0

/-- Sixteen zero bytes: exactly two non-null `int64` cells. -/
def buf16 : List Nat := List.replicate 16 0

/-- A dimension cell (eight zero bytes) followed by the nullable cell
`buf9`: one record of a dimension plus a nullable attribute. -/
def buf17 : List Nat := List.replicate 8 0 ++ buf9

/-- The two-pass decode contract of claim C1, stated over the embedded
decoder: (1) the first pass records one `(offset, width)` pair per field
descriptor per record, with each width computed by `itemsize` at the
recorded offset; (2) all recorded pairs chain consecutively from offset 0;
(3) the pass repeats until the offset reaches (at least) the buffer
length; (4) the decode is the second pass mapped over the first pass's
metadata; (5) a nullable field is split into its null-indicator byte and
the remaining value bytes. -/
def TwoPassDecode (atts : List Attribute) (buf : List Nat)
    (promo : Bool) : Prop :=
  (∀ m ∈ buf_meta atts buf, m.length = atts.length ∧
     ∀ p ∈ atts.zip m, p.2.2 = p.1.itemsize buf p.2.1) ∧
  chainedB 0 (buf_meta atts buf).flatten = true ∧
  buf.length ≤ widthSum atts buf ∧
  decode atts buf promo =
    mapE (extractRecord atts buf promo) (buf_meta atts buf) ∧
  (∀ (a : Attribute) (off sz : Nat), a.not_null = false →
     off + sz ≤ buf.length →
     a.frombytes buf off sz false =
       .ok (.pair (byteAt buf off)
         (decodeVal a.type_name buf (off + 1) (sz - 1))))

lemma sizeSum_nil : sizeSum [] = 0 := rfl

lemma sizeSum_cons (p : Nat × Nat) (l : List (Nat × Nat)) :
    sizeSum (p :: l) = p.2 + sizeSum l := by
  simp [sizeSum]

lemma sizeSum_append (l₁ l₂ : List (Nat × Nat)) :
    sizeSum (l₁ ++ l₂) = sizeSum l₁ + sizeSum l₂ := by
  simp [sizeSum]

lemma itemsize_pos (a : Attribute) (buf : List Nat) (off : Nat) :
    1 ≤ a.itemsize buf off := by
  cases h : a.type_name <;> cases hn : a.not_null <;>
    simp [Attribute.itemsize, h, hn, fixedWidth] <;> omega

lemma scanRecord_length (atts : List Attribute) (buf : List Nat) (off : Nat) :
    (scanRecord atts buf off).1.length = atts.length := by
  induction atts generalizing off with
  | nil => rfl
  | cons a rest ih => simp [scanRecord, ih]

lemma scanRecord_snd (atts : List Attribute) (buf : List Nat) (off : Nat) :
    (scanRecord atts buf off).2 = off + sizeSum (scanRecord atts buf off).1 := by
  induction atts generalizing off with
  | nil => simp [scanRecord, sizeSum_nil]
  | cons a rest ih =>
    simp only [scanRecord, sizeSum_cons]
    rw [ih]
    omega

lemma scanRecord_chained (atts : List Attribute) (buf : List Nat) (off : Nat) :
    chainedB off (scanRecord atts buf off).1 = true := by
  induction atts generalizing off with
  | nil => rfl
  | cons a rest ih => simp [scanRecord, chainedB, ih]

lemma scanRecord_sizeSum_pos (atts : List Attribute) (buf : List Nat)
    (off : Nat) (hne : atts ≠ []) :
    1 ≤ sizeSum (scanRecord atts buf off).1 := by
  cases atts with
  | nil => exact absurd rfl hne
  | cons a rest =>
    simp only [scanRecord, sizeSum_cons]
    have := itemsize_pos a buf off
    omega

lemma scanRecord_progress (atts : List Attribute) (buf : List Nat)
    (off : Nat) (hne : atts ≠ []) :
    off < (scanRecord atts buf off).2 := by
  rw [scanRecord_snd]
  have := scanRecord_sizeSum_pos atts buf off hne
  omega

lemma scanRecord_zip_width (atts : List Attribute) (buf : List Nat)
    (off : Nat) :
    ∀ p ∈ atts.zip (scanRecord atts buf off).1,
      p.2.2 = p.1.itemsize buf p.2.1 := by
  induction atts generalizing off with
  | nil => intro p hp; simp [List.zip] at hp
  | cons a rest ih =>
    intro p hp
    simp only [scanRecord, List.zip_cons_cons, List.mem_cons] at hp
    rcases hp with h | h
    · subst h; rfl
    · exact ih _ _ h

lemma scanRecord_mem_zip (atts : List Attribute) (buf : List Nat)
    (off : Nat) :
    ∀ q ∈ (scanRecord atts buf off).1,
      ∃ a, (a, q) ∈ atts.zip (scanRecord atts buf off).1 := by
  induction atts generalizing off with
  | nil => intro q hq; simp [scanRecord] at hq
  | cons a rest ih =>
    intro q hq
    simp only [scanRecord, List.mem_cons] at hq
    rcases hq with h | h
    · exact ⟨a, by simp [scanRecord, h]⟩
    · obtain ⟨b, hb⟩ := ih _ _ h
      exact ⟨b, by simp [scanRecord]; right; exact hb⟩

lemma scanRecord_append (l₁ l₂ : List Attribute) (buf : List Nat)
    (off : Nat) :
    scanRecord (l₁ ++ l₂) buf off =
      ((scanRecord l₁ buf off).1 ++
         (scanRecord l₂ buf (scanRecord l₁ buf off).2).1,
       (scanRecord l₂ buf (scanRecord l₁ buf off).2).2) := by
  induction l₁ generalizing off with
  | nil => simp [scanRecord]
  | cons a rest ih => simp [scanRecord, ih]

lemma chainedB_append (l₁ l₂ : List (Nat × Nat)) (o : Nat) :
    chainedB o (l₁ ++ l₂) =
      (chainedB o l₁ && chainedB (o + sizeSum l₁) l₂) := by
  induction l₁ generalizing o with
  | nil => simp [chainedB, sizeSum_nil]
  | cons p rest ih =>
    simp only [List.cons_append, chainedB, List.append_eq]
    rw [ih, Bool.and_assoc, sizeSum_cons, Nat.add_assoc]

lemma pair_end_le_of_chained (l : List (Nat × Nat)) (o : Nat)
    (hc : chainedB o l = true) :
    ∀ p ∈ l, p.1 + p.2 ≤ o + sizeSum l := by
  induction l generalizing o with
  | nil => intro p hp; simp at hp
  | cons q rest ih =>
    intro p hp
    simp only [chainedB, Bool.and_eq_true, beq_iff_eq] at hc
    obtain ⟨hq, hrest⟩ := hc
    simp only [List.mem_cons] at hp
    rcases hp with h | h
    · subst h
      rw [hq, sizeSum_cons]
      have : 0 ≤ sizeSum rest := Nat.zero_le _
      omega
    · have := ih (o + q.2) hrest p h
      rw [sizeSum_cons]
      omega

lemma exists_overrun (l : List (Nat × Nat)) (o N : Nat)
    (hc : chainedB o l = true) (ho : o ≤ N) (hover : N < o + sizeSum l) :
    ∃ p ∈ l, N < p.1 + p.2 := by
  induction l generalizing o with
  | nil => simp [sizeSum_nil] at hover; omega
  | cons q rest ih =>
    simp only [chainedB, Bool.and_eq_true, beq_iff_eq] at hc
    obtain ⟨hq, hrest⟩ := hc
    rw [sizeSum_cons] at hover
    by_cases h : N < o + q.2
    · exact ⟨q, List.mem_cons_self _ _, by omega⟩
    · obtain ⟨p, hp, hplt⟩ := ih (o + q.2) hrest (by omega) (by omega)
      exact ⟨p, List.mem_cons_of_mem _ hp, hplt⟩

lemma covered_of_chained (l : List (Nat × Nat)) (o : Nat)
    (hc : chainedB o l = true) :
    covered l = List.range' o (sizeSum l) := by
  induction l generalizing o with
  | nil => simp [covered, sizeSum_nil]
  | cons q rest ih =>
    simp only [chainedB, Bool.and_eq_true, beq_iff_eq] at hc
    obtain ⟨hq, hrest⟩ := hc
    simp only [covered, List.flatMap_cons, sizeSum_cons] at *
    rw [ih (o + q.2) hrest, hq]
    have := List.range'_append o q.2 (sizeSum rest) 1
    simp only [Nat.one_mul] at this
    rw [this, Nat.add_comm]

lemma nondec_of_chained (l : List (Nat × Nat)) (o : Nat)
    (hc : chainedB o l = true) :
    nondecB (l.map Prod.fst) = true := by
  induction l generalizing o with
  | nil => rfl
  | cons q rest ih =>
    simp only [chainedB, Bool.and_eq_true, beq_iff_eq] at hc
    obtain ⟨hq, hrest⟩ := hc
    cases rest with
    | nil => rfl
    | cons r rest' =>
      have htail := ih (o + q.2) hrest
      simp only [List.map_cons] at htail ⊢
      simp only [chainedB, Bool.and_eq_true, beq_iff_eq] at hrest
      simp only [nondecB, Bool.and_eq_true, decide_eq_true_eq]
      refine ⟨?_, htail⟩
      omega

lemma bufMetaF_flatten_chained (atts : List Attribute) (buf : List Nat) :
    ∀ (fuel off : Nat),
      chainedB off (bufMetaF fuel atts buf off).flatten = true := by
  intro fuel
  induction fuel with
  | zero => intro off; rfl
  | succ f ih =>
    intro off
    simp only [bufMetaF]
    by_cases h : off < buf.length
    · rw [if_pos h]
      rw [List.flatten_cons, chainedB_append, scanRecord_chained,
        Bool.true_and]
      rw [← scanRecord_snd]
      exact ih _
    · rw [if_neg h]; rfl

lemma bufMetaF_mem (atts : List Attribute) (buf : List Nat) :
    ∀ (fuel off : Nat), ∀ m ∈ bufMetaF fuel atts buf off,
      ∃ o, m = (scanRecord atts buf o).1 ∧ o < buf.length := by
  intro fuel
  induction fuel with
  | zero => intro off m hm; simp [bufMetaF] at hm
  | succ f ih =>
    intro off m hm
    simp only [bufMetaF] at hm
    by_cases h : off < buf.length
    · rw [if_pos h] at hm
      rcases List.mem_cons.mp hm with h1 | h1
      · exact ⟨off, h1, h⟩
      · exact ih _ m h1
    · rw [if_neg h] at hm; simp at hm

lemma bufMetaF_sizeSum_ge (atts : List Attribute) (buf : List Nat)
    (hne : atts ≠ []) :
    ∀ (fuel off : Nat), buf.length ≤ off + fuel →
      buf.length ≤ off + sizeSum (bufMetaF fuel atts buf off).flatten := by
  intro fuel
  induction fuel with
  | zero =>
    intro off hf
    simpa [bufMetaF, sizeSum_nil] using hf
  | succ f ih =>
    intro off hf
    simp only [bufMetaF]
    by_cases h : off < buf.length
    · rw [if_pos h, List.flatten_cons, sizeSum_append]
      have hprog := scanRecord_progress atts buf off hne
      have heq := scanRecord_snd atts buf off
      have h2 := ih ((scanRecord atts buf off).2) (by omega)
      omega
    · rw [if_neg h]
      simp only [List.flatten_nil, sizeSum_nil]
      omega

lemma buf_meta_fuel_congr (atts : List Attribute) (buf : List Nat)
    (hne : atts ≠ []) :
    ∀ (f₁ f₂ off : Nat), buf.length ≤ off + f₁ → buf.length ≤ off + f₂ →
      bufMetaF f₁ atts buf off = bufMetaF f₂ atts buf off := by
  intro f₁
  induction f₁ with
  | zero =>
    intro f₂ off h₁ h₂
    cases f₂ with
    | zero => rfl
    | succ g =>
      simp only [bufMetaF]
      rw [if_neg (by omega)]
  | succ f ih =>
    intro f₂ off h₁ h₂
    cases f₂ with
    | zero =>
      simp only [bufMetaF]
      rw [if_neg (by omega)]
    | succ g =>
      simp only [bufMetaF]
      by_cases h : off < buf.length
      · rw [if_pos h, if_pos h]
        have hprog := scanRecord_progress atts buf off hne
        rw [ih g ((scanRecord atts buf off).2) (by omega) (by omega)]
      · rw [if_neg h, if_neg h]

lemma widthSum_ge (atts : List Attribute) (buf : List Nat)
    (hne : atts ≠ []) : buf.length ≤ widthSum atts buf := by
  have := bufMetaF_sizeSum_ge atts buf hne (buf.length + 1) 0 (by omega)
  simpa [widthSum, buf_meta] using this

lemma mapE_ok_of_forall {α β : Type} (f : α → Except DecodeError β)
    (l : List α) (h : ∀ x ∈ l, ∃ v, f x = .ok v) :
    ∃ r, mapE f l = .ok r ∧ r.length = l.length := by
  induction l with
  | nil => exact ⟨[], rfl, rfl⟩
  | cons x xs ih =>
    obtain ⟨v, hv⟩ := h x (List.mem_cons_self _ _)
    obtain ⟨r, hr, hlen⟩ := ih (fun y hy => h y (List.mem_cons_of_mem _ hy))
    exact ⟨v :: r, by simp [mapE, hv, hr], by simp [hlen]⟩

lemma mapE_error_of_mem {α β : Type} (f : α → Except DecodeError β)
    (l : List α) (h : ∃ x ∈ l, ∃ e, f x = .error e) :
    ∃ e, mapE f l = .error e := by
  induction l with
  | nil => simp at h
  | cons x xs ih =>
    obtain ⟨y, hy, e, he⟩ := h
    rcases List.mem_cons.mp hy with rfl | hmem
    · exact ⟨e, by simp [mapE, he]⟩
    · cases hx : f x with
      | error e' => exact ⟨e', by simp [mapE, hx]⟩
      | ok v =>
        obtain ⟨e', he'⟩ := ih ⟨y, hmem, e, he⟩
        exact ⟨e', by simp [mapE, hx, he']⟩

lemma mapE_error_val {α β : Type} (f : α → Except DecodeError β)
    (l : List α) (E : DecodeError)
    (h : ∀ x ∈ l, ∀ e, f x = .error e → e = E) :
    ∀ e, mapE f l = .error e → e = E := by
  induction l with
  | nil => intro e he; simp [mapE] at he
  | cons x xs ih =>
    intro e he
    cases hx : f x with
    | error e' =>
      rw [mapE, hx] at he
      cases he
      exact h x (List.mem_cons_self _ _) _ hx
    | ok v =>
      rw [mapE, hx] at he
      cases hr : mapE f xs with
      | error e' =>
        rw [hr] at he
        cases he
        exact ih (fun y hy => h y (List.mem_cons_of_mem _ hy)) _ hr
      | ok vs => rw [hr] at he; cases he

lemma mapE_append_values (f : α → Except DecodeError Value)
    (l₁ l₂ : List α) :
    mapE f (l₁ ++ l₂) = combineE (mapE f l₁) (mapE f l₂) := by
  induction l₁ with
  | nil =>
    simp only [List.nil_append, mapE, combineE]
    cases mapE f l₂ <;> rfl
  | cons x xs ih =>
    simp only [List.cons_append, mapE, List.append_eq]
    rw [ih]
    cases f x with
    | error e => rfl
    | ok v =>
      simp only [combineE]
      cases mapE f xs with
      | error e => rfl
      | ok vs =>
        cases mapE f l₂ <;> rfl

lemma frombytes_error_of_overrun (a : Attribute) (buf : List Nat)
    (off sz : Nat) (promo : Bool) (h : buf.length < off + sz) :
    a.frombytes buf off sz promo =
      .error (if (fixedWidth a.type_name).isSome then .TruncatedBuffer
              else .MalformedField) := by
  rw [Attribute.frombytes, if_pos h]

lemma frombytes_ok_of_inbounds (a : Attribute) (buf : List Nat)
    (off sz : Nat) (promo : Bool) (h : off + sz ≤ buf.length) :
    ∃ v, a.frombytes buf off sz promo = .ok v := by
  rw [Attribute.frombytes, if_neg (by omega)]
  cases hn : a.not_null with
  | true => simp only [if_true]; exact ⟨_, rfl⟩
  | false =>
    simp only [Bool.false_eq_true, if_false]
    cases promo with
    | true => exact ⟨_, rfl⟩
    | false => exact ⟨_, rfl⟩

lemma frombytes_error_fixed (a : Attribute) (buf : List Nat)
    (off sz : Nat) (promo : Bool)
    (hf : (fixedWidth a.type_name).isSome = true) :
    ∀ e, a.frombytes buf off sz promo = .error e →
      e = DecodeError.TruncatedBuffer := by
  intro e he
  rw [Attribute.frombytes] at he
  by_cases h : buf.length < off + sz
  · rw [if_pos h, if_pos hf] at he
    cases he
    rfl
  · rw [if_neg h] at he
    by_cases hn : a.not_null = true
    · rw [if_pos hn] at he; cases he
    · rw [if_neg hn] at he
      cases promo with
      | true => rw [if_pos rfl] at he; cases he
      | false => rw [if_neg (by simp)] at he; cases he

lemma extractRecord_ok_of_fit (atts : List Attribute) (buf : List Nat)
    (promo : Bool) (off : Nat)
    (hfit : (scanRecord atts buf off).2 ≤ buf.length) :
    ∃ vs, extractRecord atts buf promo (scanRecord atts buf off).1 = .ok vs ∧
      vs.length = atts.length := by
  have hsnd := scanRecord_snd atts buf off
  have hall : ∀ q ∈ atts.zip (scanRecord atts buf off).1,
      ∃ v, q.1.frombytes buf q.2.1 q.2.2 promo = .ok v := by
    intro q hq
    have hmem := (List.of_mem_zip hq).2
    have hend := pair_end_le_of_chained _ off
      (scanRecord_chained atts buf off) _ hmem
    exact frombytes_ok_of_inbounds _ _ _ _ _ (by omega)
  obtain ⟨vs, h1, h2⟩ := mapE_ok_of_forall
    (fun p => p.1.frombytes buf p.2.1 p.2.2 promo)
    (atts.zip (scanRecord atts buf off).1) hall
  refine ⟨vs, h1, ?_⟩
  rw [h2, List.length_zip, scanRecord_length]
  simp

lemma extractRecord_error_of_overrun (atts : List Attribute)
    (buf : List Nat) (promo : Bool) (off : Nat) (_hne : atts ≠ [])
    (hoff : off ≤ buf.length)
    (hover : buf.length < (scanRecord atts buf off).2) :
    ∃ e, extractRecord atts buf promo (scanRecord atts buf off).1 =
      .error e := by
  have hchain := scanRecord_chained atts buf off
  have hsnd := scanRecord_snd atts buf off
  obtain ⟨p, hp, hplt⟩ :=
    exists_overrun _ off buf.length hchain hoff (by omega)
  obtain ⟨a, ha⟩ := scanRecord_mem_zip atts buf off p hp
  apply mapE_error_of_mem
  exact ⟨(a, p), ha, _, frombytes_error_of_overrun a buf p.1 p.2 promo hplt⟩

lemma extractRecord_error_fixed (atts : List Attribute) (buf : List Nat)
    (promo : Bool) (meta : List (Nat × Nat))
    (hf : allFixed atts = true) :
    ∀ e, extractRecord atts buf promo meta = .error e →
      e = DecodeError.TruncatedBuffer := by
  apply mapE_error_val
  intro q hq e he
  have hmem : q.1 ∈ atts := (List.of_mem_zip hq).1
  have hfa := List.all_eq_true.mp hf _ hmem
  exact frombytes_error_fixed _ _ _ _ _ (by simpa using hfa) e he

lemma decode_error_core (atts : List Attribute) (buf : List Nat)
    (promo : Bool) (hne : atts ≠ []) :
    ∀ (fuel off : Nat), buf.length ≤ off + fuel → off ≤ buf.length →
      buf.length < off + sizeSum (bufMetaF fuel atts buf off).flatten →
      ∃ e, mapE (extractRecord atts buf promo) (bufMetaF fuel atts buf off)
        = .error e := by
  intro fuel
  induction fuel with
  | zero =>
    intro off h1 h2 h3
    simp only [bufMetaF, List.flatten_nil, sizeSum_nil] at h3
    omega
  | succ f ih =>
    intro off h1 h2 h3
    simp only [bufMetaF] at h3 ⊢
    by_cases hlt : off < buf.length
    · rw [if_pos hlt] at h3 ⊢
      rw [List.flatten_cons, sizeSum_append] at h3
      have hsnd := scanRecord_snd atts buf off
      by_cases hov : buf.length < (scanRecord atts buf off).2
      · obtain ⟨e, he⟩ :=
          extractRecord_error_of_overrun atts buf promo off hne
            (by omega) hov
        exact ⟨e, by simp [mapE, he]⟩
      · push_neg at hov
        obtain ⟨vs, hvs, _⟩ :=
          extractRecord_ok_of_fit atts buf promo off hov
        have hprog := scanRecord_progress atts buf off hne
        obtain ⟨e, he⟩ := ih ((scanRecord atts buf off).2)
          (by omega) hov (by omega)
        exact ⟨e, by simp [mapE, hvs, he]⟩
    · rw [if_neg hlt] at h3
      simp only [List.flatten_nil, sizeSum_nil] at h3
      omega

lemma decode_error_of_mismatch (atts : List Attribute) (buf : List Nat)
    (promo : Bool) (hne : atts ≠ [])
    (hsum : widthSum atts buf ≠ buf.length) :
    ∃ e, decode atts buf promo = .error e := by
  have hge := widthSum_ge atts buf hne
  have hlt : buf.length < widthSum atts buf :=
    lt_of_le_of_ne hge (Ne.symm hsum)
  have hcore := decode_error_core atts buf promo hne (buf.length + 1) 0
    (by omega) (by omega)
    (by
      have : widthSum atts buf =
          sizeSum (bufMetaF (buf.length + 1) atts buf 0).flatten := rfl
      omega)
  exact hcore

lemma decode_error_fixed_val (atts : List Attribute) (buf : List Nat)
    (promo : Bool) (hf : allFixed atts = true) :
    ∀ e, decode atts buf promo = .error e →
      e = DecodeError.TruncatedBuffer := by
  apply mapE_error_val
  intro m hm e he
  exact extractRecord_error_fixed atts buf promo m hf e he

lemma decode_TruncatedBuffer (atts : List Attribute) (buf : List Nat)
    (promo : Bool) (hne : atts ≠ []) (hf : allFixed atts = true)
    (hsum : widthSum atts buf ≠ buf.length) :
    decode atts buf promo = .error .TruncatedBuffer := by
  obtain ⟨e, he⟩ := decode_error_of_mismatch atts buf promo hne hsum
  rw [he, decode_error_fixed_val atts buf promo hf e he]

lemma itemsize_fixed (a : Attribute) (buf : List Nat) (off : Nat)
    (hf : (fixedWidth a.type_name).isSome = true) :
    a.itemsize buf off = fixedItem a := by
  cases h : a.type_name <;> cases hn : a.not_null <;>
    simp [Attribute.itemsize, fixedItem, fixedWidth, h, hn] at hf ⊢

lemma fixedItem_pos (a : Attribute)
    (hf : (fixedWidth a.type_name).isSome = true) : 1 ≤ fixedItem a := by
  cases h : a.type_name <;> cases hn : a.not_null <;>
    simp [fixedItem, fixedWidth, h, hn] at hf ⊢

lemma allFixed_cons (a : Attribute) (rest : List Attribute)
    (hf : allFixed (a :: rest) = true) :
    (fixedWidth a.type_name).isSome = true ∧ allFixed rest = true := by
  simpa [allFixed] using hf

lemma recordWidth_pos (atts : List Attribute) (hne : atts ≠ [])
    (hf : allFixed atts = true) : 1 ≤ recordWidth atts := by
  cases atts with
  | nil => exact absurd rfl hne
  | cons a rest =>
    have h := (allFixed_cons a rest hf).1
    have := fixedItem_pos a h
    simp only [recordWidth, List.map_cons, List.sum_cons]
    omega

lemma scanRecord_snd_fixed (atts : List Attribute) (buf : List Nat) :
    ∀ off, allFixed atts = true →
      (scanRecord atts buf off).2 = off + recordWidth atts := by
  induction atts with
  | nil =>
    intro off _
    simp [scanRecord, recordWidth]
  | cons a rest ih =>
    intro off hf
    obtain ⟨h1, h2⟩ := allFixed_cons a rest hf
    simp only [scanRecord, recordWidth, List.map_cons, List.sum_cons]
    rw [itemsize_fixed a buf off h1, ih _ h2]
    have : recordWidth rest = (rest.map fixedItem).sum := rfl
    omega

lemma scanRecord_sizeSum_fixed (atts : List Attribute) (buf : List Nat)
    (off : Nat) (hf : allFixed atts = true) :
    sizeSum (scanRecord atts buf off).1 = recordWidth atts := by
  have h1 := scanRecord_snd atts buf off
  have h2 := scanRecord_snd_fixed atts buf off hf
  omega

lemma bufMetaF_sizeSum_fixed (atts : List Attribute) (buf : List Nat)
    (hf : allFixed atts = true) :
    ∀ (fuel off : Nat),
      sizeSum (bufMetaF fuel atts buf off).flatten =
        recordWidth atts * (bufMetaF fuel atts buf off).length := by
  intro fuel
  induction fuel with
  | zero => intro off; simp [bufMetaF, sizeSum_nil]
  | succ f ih =>
    intro off
    simp only [bufMetaF]
    by_cases h : off < buf.length
    · rw [if_pos h, List.flatten_cons, sizeSum_append,
        scanRecord_sizeSum_fixed atts buf off hf, ih, List.length_cons]
      ring
    · rw [if_neg h]
      simp [sizeSum_nil]

lemma decode_fixed_ok (atts : List Attribute) (buf : List Nat)
    (promo : Bool) (hne : atts ≠ []) (hf : allFixed atts = true) :
    ∀ (m : Nat), ∀ (fuel off : Nat),
      buf.length = off + recordWidth atts * m → m ≤ fuel →
      ∃ rs, mapE (extractRecord atts buf promo) (bufMetaF fuel atts buf off)
        = .ok rs ∧ rs.length = m := by
  intro m
  induction m with
  | zero =>
    intro fuel off h hm
    cases fuel with
    | zero => exact ⟨[], rfl, rfl⟩
    | succ g =>
      simp only [bufMetaF]
      rw [if_neg (by omega)]
      exact ⟨[], rfl, rfl⟩
  | succ k ih =>
    intro fuel off h hm
    have hW := recordWidth_pos atts hne hf
    have hmul : recordWidth atts * (k + 1) =
        recordWidth atts * k + recordWidth atts := by ring
    cases fuel with
    | zero => omega
    | succ g =>
      simp only [bufMetaF]
      rw [if_pos (by omega)]
      have hsnd := scanRecord_snd_fixed atts buf off hf
      obtain ⟨vs, hvs, hvl⟩ :=
        extractRecord_ok_of_fit atts buf promo off (by omega)
      obtain ⟨rs, hrs, hrl⟩ := ih g ((scanRecord atts buf off).2)
        (by omega) (by omega)
      refine ⟨vs :: rs, ?_, by simp [hrl]⟩
      simp [mapE, hvs, hrs]

lemma itemsize_congr (a b : Attribute) (h : a.shape = b.shape) :
    a.itemsize = b.itemsize := by
  have h1 : a.type_name = b.type_name := congrArg Prod.fst h
  have h2 : a.not_null = b.not_null := congrArg Prod.snd h
  funext buf off
  rw [Attribute.itemsize, Attribute.itemsize, h1, h2]

lemma frombytes_congr (a b : Attribute) (h : a.shape = b.shape) :
    a.frombytes = b.frombytes := by
  have h1 : a.type_name = b.type_name := congrArg Prod.fst h
  have h2 : a.not_null = b.not_null := congrArg Prod.snd h
  funext buf off sz promo
  rw [Attribute.frombytes, Attribute.frombytes, h1, h2]

lemma scanRecord_congr (atts₁ atts₂ : List Attribute) (buf : List Nat)
    (h : atts₁.map Attribute.shape = atts₂.map Attribute.shape) :
    ∀ off, scanRecord atts₁ buf off = scanRecord atts₂ buf off := by
  induction atts₁ generalizing atts₂ with
  | nil =>
    cases atts₂ with
    | nil => intro off; rfl
    | cons b s => simp at h
  | cons a r ih =>
    cases atts₂ with
    | nil => simp at h
    | cons b s =>
      simp only [List.map_cons, List.cons.injEq] at h
      intro off
      simp only [scanRecord]
      rw [itemsize_congr a b h.1, ih s h.2]

lemma bufMetaF_congr_shape (atts₁ atts₂ : List Attribute) (buf : List Nat)
    (h : atts₁.map Attribute.shape = atts₂.map Attribute.shape) :
    ∀ fuel off, bufMetaF fuel atts₁ buf off = bufMetaF fuel atts₂ buf off := by
  intro fuel
  induction fuel with
  | zero => intro off; rfl
  | succ f ih =>
    intro off
    simp only [bufMetaF]
    rw [scanRecord_congr atts₁ atts₂ buf h, ih]

lemma extractRecord_congr (atts₁ atts₂ : List Attribute) (buf : List Nat)
    (promo : Bool)
    (h : atts₁.map Attribute.shape = atts₂.map Attribute.shape) :
    ∀ meta, extractRecord atts₁ buf promo meta =
      extractRecord atts₂ buf promo meta := by
  induction atts₁ generalizing atts₂ with
  | nil =>
    cases atts₂ with
    | nil => intro meta; rfl
    | cons b s => simp at h
  | cons a r ih =>
    cases atts₂ with
    | nil => simp at h
    | cons b s =>
      simp only [List.map_cons, List.cons.injEq] at h
      intro meta
      cases meta with
      | nil => rfl
      | cons q qs =>
        simp only [extractRecord, List.zip_cons_cons, mapE]
        rw [frombytes_congr a b h.1]
        have := ih s h.2 qs
        simp only [extractRecord, List.zip] at this
        rw [this]

lemma decode_congr (atts₁ atts₂ : List Attribute) (buf : List Nat)
    (promo : Bool)
    (h : atts₁.map Attribute.shape = atts₂.map Attribute.shape) :
    decode atts₁ buf promo = decode atts₂ buf promo := by
  unfold decode buf_meta
  rw [bufMetaF_congr_shape atts₁ atts₂ buf h]
  have hext := extractRecord_congr atts₁ atts₂ buf promo h
  clear h
  induction bufMetaF (buf.length + 1) atts₂ buf 0 with
  | nil => rfl
  | cons m ms ih =>
    simp only [mapE]
    rw [hext m, ih]

lemma frombytes_raw_pair (a : Attribute) (buf : List Nat) (off sz : Nat)
    (hnn : a.not_null = false) (hin : off + sz ≤ buf.length) :
    a.frombytes buf off sz false =
      .ok (.pair (byteAt buf off)
        (decodeVal a.type_name buf (off + 1) (sz - 1))) := by
  rw [Attribute.frombytes, if_neg (by omega), hnn]
  simp

lemma frombytes_promo_present (a : Attribute) (buf : List Nat)
    (off sz : Nat) (hnn : a.not_null = false)
    (hin : off + sz ≤ buf.length) (hind : byteAt buf off = 255) :
    a.frombytes buf off sz true =
      .ok (promoteVal (decodeVal a.type_name buf (off + 1) (sz - 1))) := by
  rw [Attribute.frombytes, if_neg (by omega), hnn]
  simp [hind]

lemma frombytes_promo_null (a : Attribute) (buf : List Nat)
    (off sz : Nat) (hnn : a.not_null = false)
    (hin : off + sz ≤ buf.length) (hind : byteAt buf off ≠ 255) :
    a.frombytes buf off sz true = .ok .nan := by
  rw [Attribute.frombytes, if_neg (by omega), hnn]
  simp [hind]

/-- C1: for every buffer and nonempty field-descriptor sequence, decode
proceeds in two passes: the first pass keeps a running offset from 0 and,
repeating until the offset reaches the buffer length, computes each
field's byte width in descriptor order, records the `(offset, width)`
pair, and advances the offset by that width; the second pass extracts
each field's typed value from the buffer at its recorded pair, splitting
nullable fields into a null-indicator byte and the remaining value
bytes. -/
theorem c1_decode_two_pass (atts : List Attribute) (buf : List Nat)
    (promo : Bool) (hne : atts ≠ []) : TwoPassDecode atts buf promo := by
  refine ⟨?_, ?_, ?_, rfl, ?_⟩
  · intro m hm
    obtain ⟨o, rfl, ho⟩ := bufMetaF_mem atts buf (buf.length + 1) 0 m hm
    exact ⟨scanRecord_length atts buf o, scanRecord_zip_width atts buf o⟩
  · exact bufMetaF_flatten_chained atts buf (buf.length + 1) 0
  · exact widthSum_ge atts buf hne
  · intro a off sz hnn hin
    exact frombytes_raw_pair a buf off sz hnn hin

/-- Witness for C1 at the nullable-`int64` doctest cell. -/
theorem c1_decode_two_pass_witness :
    [attX] ≠ [] ∧ TwoPassDecode [attX] buf9 false :=
  ⟨by decide, c1_decode_two_pass [attX] buf9 false (by decide)⟩

/-- C2: for every buffer whose recorded field widths do not exactly
consume its length, the decode fails with an error and returns no
records; with only fixed-width descriptors the error is
`TruncatedBuffer`. -/
theorem c2_truncation_fatal (atts : List Attribute) (buf : List Nat)
    (promo : Bool) (hne : atts ≠ [])
    (hsum : widthSum atts buf ≠ buf.length) :
    (∃ e, decode atts buf promo = .error e) ∧
    (allFixed atts = true →
      decode atts buf promo = .error .TruncatedBuffer) := by
  refine ⟨decode_error_of_mismatch atts buf promo hne hsum, ?_⟩
  intro hf
  exact decode_TruncatedBuffer atts buf promo hne hf hsum

/-- Witness for C2: a buffer of 12 bytes truncated midway through the
second non-null `int64` cell decodes to `TruncatedBuffer`. -/
theorem c2_truncation_fatal_witness :
    ([attI] ≠ [] ∧ widthSum [attI] buf12 ≠ buf12.length) ∧
    decode [attI] buf12 false = .error .TruncatedBuffer :=
  ⟨⟨by decide, by decide⟩,
   (c2_truncation_fatal [attI] buf12 false (by decide) (by decide)).2
     (by decide)⟩

/-- C4: for every buffer decoded against a nonempty descriptor sequence of
fixed-width types only, the number of decoded records is the buffer
length divided by the sum of the fixed widths, and a non-integral
division is a `TruncatedBuffer` error. -/
theorem c4_fixed_width_count (atts : List Attribute) (buf : List Nat)
    (promo : Bool) (hne : atts ≠ []) (hf : allFixed atts = true) :
    (recordWidth atts ∣ buf.length →
       ∃ rs, decode atts buf promo = .ok rs ∧
         rs.length = buf.length / recordWidth atts) ∧
    (¬ recordWidth atts ∣ buf.length →
       decode atts buf promo = .error .TruncatedBuffer) := by
  constructor
  · intro hd
    have hm : buf.length =
        0 + recordWidth atts * (buf.length / recordWidth atts) := by
      rw [Nat.zero_add, Nat.mul_div_cancel' hd]
    exact decode_fixed_ok atts buf promo hne hf _ (buf.length + 1) 0 hm
      (le_trans (Nat.div_le_self _ _) (by omega))
  · intro hd
    apply decode_TruncatedBuffer atts buf promo hne hf
    intro hsum
    apply hd
    have hmul := bufMetaF_sizeSum_fixed atts buf hf (buf.length + 1) 0
    rw [← hsum]
    exact ⟨_, hmul⟩

/-- Witness for C4: sixteen bytes hold exactly two non-null `int64` cells;
twelve bytes are not a whole number of cells and fail. -/
theorem c4_fixed_width_count_witness :
    ([attI] ≠ [] ∧ allFixed [attI] = true ∧
      recordWidth [attI] ∣ buf16.length ∧
      ¬ recordWidth [attI] ∣ buf12.length) ∧
    (∃ rs, decode [attI] buf16 false = .ok rs ∧
       rs.length = buf16.length / recordWidth [attI]) ∧
    decode [attI] buf12 false = .error .TruncatedBuffer :=
  ⟨⟨by decide, by decide, by decide, by decide⟩,
   (c4_fixed_width_count [attI] buf16 false (by decide) (by decide)).1
     (by decide),
   (c4_fixed_width_count [attI] buf12 false (by decide) (by decide)).2
     (by decide)⟩

/-- C8: the offsets recorded by the first pass are monotonically
non-decreasing and chain consecutively from 0, each field's offset being
the previous offset plus its width; when the recorded widths sum to the
buffer length — the exactness condition the decode enforces — the
recorded pairs cover the buffer indices exactly once, in order: no gaps
and no overlaps. -/
theorem c8_offsets_partition (atts : List Attribute) (buf : List Nat) :
    chainedB 0 (buf_meta atts buf).flatten = true ∧
    nondecB ((buf_meta atts buf).flatten.map Prod.fst) = true ∧
    (widthSum atts buf = buf.length →
       covered (buf_meta atts buf).flatten = List.range buf.length) := by
  have hch := bufMetaF_flatten_chained atts buf (buf.length + 1) 0
  refine ⟨hch, nondec_of_chained _ 0 hch, ?_⟩
  intro hsum
  unfold buf_meta
  rw [covered_of_chained _ 0 hch]
  have hs : sizeSum (bufMetaF (buf.length + 1) atts buf 0).flatten =
      buf.length := hsum
  rw [hs, ← List.range_eq_range']

/-- Witness for C8 at two non-null `int64` cells. -/
theorem c8_offsets_partition_witness :
    chainedB 0 (buf_meta [attI] buf16).flatten = true ∧
    nondecB ((buf_meta [attI] buf16).flatten.map Prod.fst) = true ∧
    covered (buf_meta [attI] buf16).flatten = List.range buf16.length :=
  ⟨(c8_offsets_partition [attI] buf16).1,
   (c8_offsets_partition [attI] buf16).2.1,
   (c8_offsets_partition [attI] buf16).2.2 (by decide)⟩

/-- C3 counterexample: the claim reads a zero null-indicator as "present"
and any non-zero indicator as "absent" (promoted to the sentinel).  On
the encoding the code decodes — pinned by the `db.py` doctests, where
`(255, 0)` is the present value `0` and promotes to `0.0` — indicator
`255` with promotion on yields the promoted payload, not the sentinel,
and indicator `0` yields the sentinel, not the payload. -/
theorem c3_counterexample :
    (attX.frombytes buf9 0 9 true = .ok (.floatOfInt 1) ∧
      Value.floatOfInt 1 ≠ Value.nan) ∧
    (attX.frombytes buf9null 0 9 true = .ok Value.nan ∧
      Value.nan ≠ Value.floatOfInt 1) :=
  ⟨⟨by rfl, by decide⟩, ⟨by rfl, by decide⟩⟩

/-- C3 (amended): for every in-range nullable field, without promotion the
raw `(indicator, payload)` pair is produced; with promotion on, indicator
`255` (present, per the encoding shown in the `db.py` doctests) yields
the payload interpreted per the field's type — integers widened to
floating point — while any other indicator (missing) yields the NaN
sentinel. -/
theorem c3_nullable_promotion (a : Attribute) (buf : List Nat)
    (off sz : Nat) (hnn : a.not_null = false)
    (hin : off + sz ≤ buf.length) :
    a.frombytes buf off sz false =
      .ok (.pair (byteAt buf off)
        (decodeVal a.type_name buf (off + 1) (sz - 1))) ∧
    (byteAt buf off = 255 →
      a.frombytes buf off sz true =
        .ok (promoteVal (decodeVal a.type_name buf (off + 1) (sz - 1)))) ∧
    (byteAt buf off ≠ 255 →
      a.frombytes buf off sz true = .ok Value.nan) ∧
    (∀ v : Int, promoteVal (.i v) = .floatOfInt v) := by
  refine ⟨frombytes_raw_pair a buf off sz hnn hin, ?_, ?_, fun v => rfl⟩
  · intro h
    exact frombytes_promo_present a buf off sz hnn hin h
  · intro h
    exact frombytes_promo_null a buf off sz hnn hin h

/-- Witness for the amended C3 at the nullable-`int64` doctest cell. -/
theorem c3_nullable_promotion_witness :
    (attX.not_null = false ∧ 0 + 9 ≤ buf9.length) ∧
    (attX.frombytes buf9 0 9 false =
       .ok (.pair (byteAt buf9 0)
         (decodeVal attX.type_name buf9 (0 + 1) (9 - 1))) ∧
     (byteAt buf9 0 = 255 →
       attX.frombytes buf9 0 9 true =
         .ok (promoteVal (decodeVal attX.type_name buf9 (0 + 1) (9 - 1)))) ∧
     (byteAt buf9 0 ≠ 255 →
       attX.frombytes buf9 0 9 true = .ok Value.nan) ∧
     (∀ v : Int, promoteVal (.i v) = .floatOfInt v)) :=
  ⟨⟨by decide, by decide⟩,
   c3_nullable_promotion attX buf9 0 9 (by decide) (by decide)⟩

/-- C5: with `atts_only` the decode descriptors are the attributes alone;
without it they are the renamed dimensions (as attributes) followed by
the attributes, and both passes split over that concatenation: the first
pass measures the dimension fields then the attribute fields, and each
extracted record is the concatenation of the dimension values and the
attribute values, in descriptor order. -/
theorem c5_dims_before_atts (sch : Schema) (buf : List Nat)
    (promo : Bool) :
    fetchAtts sch true = sch.atts ∧
    fetchAtts sch false =
      sch.make_dims_unique.dims.map dimToAtt ++ sch.atts ∧
    (∀ (d a : List Attribute) (off : Nat),
       (scanRecord (d ++ a) buf off).1 =
         (scanRecord d buf off).1 ++
           (scanRecord a buf (scanRecord d buf off).2).1) ∧
    (∀ (d a : List Attribute) (m₁ m₂ : List (Nat × Nat)),
       m₁.length = d.length →
       extractRecord (d ++ a) buf promo (m₁ ++ m₂) =
         combineE (extractRecord d buf promo m₁)
           (extractRecord a buf promo m₂)) := by
  refine ⟨rfl, rfl, ?_, ?_⟩
  · intro d a off
    rw [scanRecord_append]
  · intro d a m₁ m₂ hlen
    rw [extractRecord, List.zip_append hlen.symm, mapE_append_values]
    rfl

/-- Witness for C5: one dimension cell followed by one nullable attribute
cell. -/
theorem c5_dims_before_atts_witness :
    fetchAtts ⟨[attX], [⟨"i"⟩]⟩ true = [attX] ∧
    fetchAtts ⟨[attX], [⟨"i"⟩]⟩ false = [attI, attX] ∧
    ([(0, 8)] : List (Nat × Nat)).length = [attI].length ∧
    extractRecord ([attI] ++ [attX]) buf17 false ([(0, 8)] ++ [(8, 9)]) =
      combineE (extractRecord [attI] buf17 false [(0, 8)])
        (extractRecord [attX] buf17 false [(8, 9)]) :=
  ⟨(c5_dims_before_atts ⟨[attX], [⟨"i"⟩]⟩ buf17 false).1,
   (c5_dims_before_atts ⟨[attX], [⟨"i"⟩]⟩ buf17 false).2.1,
   by decide,
   (c5_dims_before_atts ⟨[attX], [⟨"i"⟩]⟩ buf17 false).2.2.2
     [attI] [attX] [(0, 8)] [(8, 9)] (by decide)⟩

/-- C6: the nullable-promotion flag `dataframe_promo` defaults to true,
and when it is false the fetch decodes without promotion, every nullable
value remaining the raw `(indicator, value)` pair in the output. -/
theorem c6_promo_default (sch : Schema) (buf : List Nat)
    (opts : IqueryOpts) (a : Attribute) (off sz : Nat)
    (hnn : a.not_null = false) (hin : off + sz ≤ buf.length)
    (hp : opts.dataframe_promo = false) :
    ({} : IqueryOpts).dataframe_promo = true ∧
    iquery_fetch sch opts buf =
      decode (fetchAtts sch opts.atts_only) buf false ∧
    a.frombytes buf off sz false =
      .ok (.pair (byteAt buf off)
        (decodeVal a.type_name buf (off + 1) (sz - 1))) := by
  refine ⟨rfl, ?_, frombytes_raw_pair a buf off sz hnn hin⟩
  rw [iquery_fetch, hp, Bool.and_false]

/-- Witness for C6 at the nullable-`int64` doctest cell. -/
theorem c6_promo_default_witness :
    (attX.not_null = false ∧ 0 + 9 ≤ buf9.length ∧
      IqueryOpts.dataframe_promo { dataframe_promo := false } = false) ∧
    (({} : IqueryOpts).dataframe_promo = true ∧
     iquery_fetch ⟨[attX], []⟩ { dataframe_promo := false } buf9 =
       decode (fetchAtts ⟨[attX], []⟩ false) buf9 false ∧
     attX.frombytes buf9 0 9 false =
       .ok (.pair (byteAt buf9 0)
         (decodeVal attX.type_name buf9 (0 + 1) (9 - 1)))) :=
  ⟨⟨by decide, by decide, by decide⟩,
   c6_promo_default ⟨[attX], []⟩ buf9 { dataframe_promo := false }
     attX 0 9 (by decide) (by decide) (by decide)⟩

/-- C7: names reaching the decoder are already unique — after
`make_dims_unique` (run before decoding when dimensions are fetched) no
dimension name equals an attribute name, provided the freshly generated
names are themselves fresh — and the decoder never re-validates or even
reads names: decoding is invariant under renaming the descriptors. -/
theorem c7_names_resolved (sch : Schema) (buf : List Nat) (promo : Bool)
    (atts₁ atts₂ : List Attribute)
    (hfresh : ∀ d ∈ sch.dims,
      (d.name ++ "_1") ∉ sch.atts.map Attribute.name)
    (hshape : atts₁.map Attribute.shape = atts₂.map Attribute.shape) :
    (∀ d ∈ sch.make_dims_unique.dims,
       d.name ∉ sch.make_dims_unique.atts.map Attribute.name) ∧
    decode atts₁ buf promo = decode atts₂ buf promo := by
  refine ⟨?_, decode_congr atts₁ atts₂ buf promo hshape⟩
  intro d hd
  have hatts : sch.make_dims_unique.atts = sch.atts := rfl
  rw [hatts]
  simp only [Schema.make_dims_unique, List.mem_map] at hd
  obtain ⟨d0, hd0, hmap⟩ := hd
  by_cases hc : ∃ a ∈ sch.atts, a.name = d0.name
  · rw [if_pos hc] at hmap
    rw [← hmap]
    simpa using hfresh d0 hd0
  · rw [if_neg hc] at hmap
    rw [← hmap]
    simpa using hc

/-- Witness for C7: the doctest collision (`apply(build(...), i, i)`):
dimension `i` collides with attribute `i` and is renamed `i_1`; renaming
an attribute from `x` to `y` leaves the decode unchanged. -/
theorem c7_names_resolved_witness :
    ((∀ d ∈ (⟨[attX, attI], [⟨"i"⟩]⟩ : Schema).dims,
        (d.name ++ "_1") ∉ ([attX, attI].map Attribute.name)) ∧
      [attX].map Attribute.shape =
        [Attribute.mk "y" .int64 false].map Attribute.shape) ∧
    ((∀ d ∈ (⟨[attX, attI], [⟨"i"⟩]⟩ : Schema).make_dims_unique.dims,
        d.name ∉
          (⟨[attX, attI], [⟨"i"⟩]⟩ : Schema).make_dims_unique.atts.map
            Attribute.name) ∧
     decode [attX] buf9 false =
       decode [Attribute.mk "y" .int64 false] buf9 false) :=
  ⟨⟨by decide, by decide⟩,
   c7_names_resolved ⟨[attX, attI], [⟨"i"⟩]⟩ buf9 false
     [attX] [Attribute.mk "y" .int64 false] (by decide) (by decide)⟩

/-- C9: a deferred expression object holds an operator name and an
argument list; calling a lazy operator stores the arguments and returns
the expression unevaluated, executing no query, while `create_array` and
`remove` execute the rendered query on call (a short `create_array` call
first receives the default `temporary=False` argument). -/
theorem c9_lazy_expression (op : String) (args args0 : List String) :
    ((SciDBExpr.mk op args0).is_lazy = true →
       ∃ e1, (SciDBExpr.mk op args0).call args = .lazy e1 ∧
         e1.operator = op ∧
         (startsWithStr (lowerStr op) "create_array" = false →
            e1.args = args)) ∧
    (lowerStr op = "remove" →
       (SciDBExpr.mk op args0).call args =
         .executed (SciDBExpr.str ⟨op, args⟩)) ∧
    (lowerStr op = "create_array" →
       (SciDBExpr.mk op args0).call args =
         .executed (SciDBExpr.str
           ⟨op, if args.length < 3 then args ++ ["False"] else args⟩)) := by
  refine ⟨?_, ?_, ?_⟩
  · intro h
    by_cases hc : startsWithStr (lowerStr op) "create_array" = true ∧
        args.length < 3
    · have h1 : (SciDBExpr.mk op (args ++ ["False"])).is_lazy = true := h
      refine ⟨⟨op, args ++ ["False"]⟩, ?_, rfl, ?_⟩
      · simp only [SciDBExpr.call]
        rw [if_pos hc, if_pos h1]
      · intro hsw
        exfalso
        obtain ⟨h2, _⟩ := hc
        rw [hsw] at h2
        exact Bool.false_ne_true h2
    · have h1 : (SciDBExpr.mk op args).is_lazy = true := h
      refine ⟨⟨op, args⟩, ?_, rfl, fun _ => rfl⟩
      simp only [SciDBExpr.call]
      rw [if_neg hc, if_pos h1]
  · intro h
    have hC : ¬(startsWithStr (lowerStr op) "create_array" = true ∧
        args.length < 3) := by
      rintro ⟨h1, _⟩
      rw [h] at h1
      exact absurd h1 (by decide)
    have hl : (SciDBExpr.mk op args).is_lazy = false := by
      show (!(lowerStr op == "create_array" || lowerStr op == "remove"))
        = false
      rw [h]
      decide
    simp only [SciDBExpr.call]
    rw [if_neg hC, if_neg (by simp [hl])]
  · intro h
    have hsw : startsWithStr (lowerStr op) "create_array" = true := by
      rw [h]; decide
    by_cases hlen : args.length < 3
    · have hC : startsWithStr (lowerStr op) "create_array" = true ∧
          args.length < 3 := ⟨hsw, hlen⟩
      have hl : (SciDBExpr.mk op (args ++ ["False"])).is_lazy = false := by
        show (!(lowerStr op == "create_array" || lowerStr op == "remove"))
          = false
        rw [h]
        decide
      simp only [SciDBExpr.call]
      rw [if_pos hC, if_neg (by simp [hl]), if_pos hlen]
    · have hC : ¬(startsWithStr (lowerStr op) "create_array" = true ∧
          args.length < 3) := by
        rintro ⟨_, hx⟩
        exact hlen hx
      have hl : (SciDBExpr.mk op args).is_lazy = false := by
        show (!(lowerStr op == "create_array" || lowerStr op == "remove"))
          = false
        rw [h]
        decide
      simp only [SciDBExpr.call]
      rw [if_neg hC, if_neg (by simp [hl]), if_neg hlen]

/-- Witness for C9: `build` is lazy; `remove` and a two-argument
`create_array` execute, the latter with the appended default. -/
theorem c9_lazy_expression_witness :
    ((SciDBExpr.mk "build" []).is_lazy = true ∧
      (∃ e1, (SciDBExpr.mk "build" []).call ["<x:int8>", "random()"] =
          .lazy e1 ∧ e1.operator = "build" ∧
        (startsWithStr (lowerStr "build") "create_array" = false →
           e1.args = ["<x:int8>", "random()"]))) ∧
    (lowerStr "remove" = "remove" ∧
      (SciDBExpr.mk "remove" []).call ["foo"] =
        .executed (SciDBExpr.str ⟨"remove", ["foo"]⟩)) ∧
    (lowerStr "create_array" = "create_array" ∧
      (SciDBExpr.mk "create_array" []).call ["foo", "<x:int64>[i]"] =
        .executed (SciDBExpr.str ⟨"create_array",
          if (["foo", "<x:int64>[i]"] : List String).length < 3 then
            ["foo", "<x:int64>[i]"] ++ ["False"]
          else ["foo", "<x:int64>[i]"]⟩)) :=
  ⟨⟨by decide,
    (c9_lazy_expression "build" ["<x:int8>", "random()"] []).1 (by decide)⟩,
   ⟨by decide,
    (c9_lazy_expression "remove" ["foo"] []).2.1 (by decide)⟩,
   ⟨by decide,
    (c9_lazy_expression "create_array" ["foo", "<x:int64>[i]"] []).2.2
      (by decide)⟩⟩

/-- C10: constructing a connection with SciDB credentials and a URL that
does not start with `https` (case-insensitively) fails and produces no
connection object; with an https URL the public `scidb_auth` field holds
the user name with the password replaced by the placeholder. -/
theorem c10_scidb_auth_requires_https (url u p : String)
    (ha : Option (String × String)) :
    (startsWithStr (lowerStr url) "https" = false →
       db_init url (some (u, p)) ha =
         .error
           "SciDB credentials can only be used with https connections") ∧
    (startsWithStr (lowerStr url) "https" = true →
       db_init url (some (u, p)) ha =
         .ok ⟨url, some (u, .password_provided),
           ha.map (fun q => (q.1, .password_provided)), some (u, p)⟩) := by
  constructor
  · intro h
    simp only [db_init]
    rw [if_neg (by simp [h])]
  · intro h
    simp only [db_init]
    rw [if_pos h]

/-- Witness for C10: a plain-http URL is rejected; an upper-case https
URL is accepted with the password masked. -/
theorem c10_scidb_auth_requires_https_witness :
    (startsWithStr (lowerStr "http://localhost:8080") "https" = false ∧
      db_init "http://localhost:8080" (some ("u", "p")) none =
        .error
          "SciDB credentials can only be used with https connections") ∧
    (startsWithStr (lowerStr "HTTPS://localhost:8083") "https" = true ∧
      db_init "HTTPS://localhost:8083" (some ("u", "p")) none =
        .ok ⟨"HTTPS://localhost:8083", some ("u", .password_provided),
          (none : Option (String × String)).map
            (fun q => (q.1, .password_provided)), some ("u", "p")⟩) :=
  ⟨⟨by decide,
    (c10_scidb_auth_requires_https "http://localhost:8080" "u" "p"
      none).1 (by decide)⟩,
   ⟨by decide,
    (c10_scidb_auth_requires_https "HTTPS://localhost:8083" "u" "p"
      none).2 (by decide)⟩⟩

example : buf_meta [⟨"i", .int64, true⟩] (List.replicate 12 0) =
    [[(0, 8)], [(8, 8)]] := by decide

example : decode [⟨"i", .int64, true⟩] (List.replicate 12 0) false =
    .error .TruncatedBuffer := by rfl

example : decode [⟨"x", .int64, false⟩] [255, 1, 0, 0, 0, 0, 0, 0, 0] true =
    .ok [[.floatOfInt 1]] := by rfl

example : decode [⟨"x", .int64, false⟩] [0, 1, 0, 0, 0, 0, 0, 0, 0] true =
    .ok [[.nan]] := by rfl

example : decode [⟨"x", .int64, false⟩] [255, 1, 0, 0, 0, 0, 0, 0, 0] false =
    .ok [[.pair 255 (.i 1)]] := by rfl

example : decode [⟨"s", .string, false⟩] [255, 2, 0, 0, 0, 104, 105] false =
    .ok [[.pair 255 (.s [104, 105])]] := by rfl

example : (SciDBExpr.mk "build" []).call ["<x:int8>[i=0:2]", "random()"] =
    .lazy ⟨"build", ["<x:int8>[i=0:2]", "random()"]⟩ := by decide

example : (SciDBExpr.mk "remove" []).call ["foo"] =
    .executed "remove(foo)" := by decide

example : (SciDBExpr.mk "create_array" []).call ["foo", "<x:int64>[i]"] =
    .executed "create_array(foo, <x:int64>[i], False)" := by decide

example : db_init "http://localhost:8080" (some ("u", "p")) none =
    .error "SciDB credentials can only be used with https connections" := by
  rfl

example : (Schema.mk [⟨"x", .int64, true⟩, ⟨"i", .int64, true⟩]
    [⟨"i"⟩]).make_dims_unique.dims = [⟨"i_1"⟩] := by decide
